import Mathlib

/-!
Shallow embedding of `src/benchmark/hstar_demo.py`: the static (leaky) and
rolling-origin (causal) validation protocols for a PM10 forecasting benchmark,
their shared smoothing / lag-feature / standardization machinery, the skill
score, and the `compute_hstar` predictability-limit statistic.

Series values are embedded as rationals (`ℚ`).  The two numeric operations the
program takes from external libraries — the sklearn `Ridge(alpha=1.0)`
fit/predict pipeline and the floating-point square root used by `np.sqrt` and
inside `StandardScaler` — are not code of this repository; they are modelled
as an abstract parameter `NumOps`, and every structural theorem below is
proved for an arbitrary instantiation of it.
-/

namespace HStarDemo

/-- Per-horizon record: the code stores a dict with keys `rmse` and `skill`. -/
structure SkillStat where
  rmse : ℚ
  skill : ℚ
  deriving DecidableEq, Repr

/-- Abstract model of the external numeric dependencies: `ridge X y row` is
`Ridge(alpha=1.0).fit(X, y).predict([row])[0]` from sklearn, and `sqrt` is the
floating-point square root (`np.sqrt`, also used inside `StandardScaler`).
These are library code outside the repository, so they are kept opaque
parameters; the protocol theorems hold for every choice. -/
structure NumOps where
  ridge : List (List ℚ) → List ℚ → List ℚ → ℚ
  sqrt : ℚ → ℚ

/-- Python / pandas positional indexing `y.iloc[i]` (and `arr[i]`): a negative
index counts from the end of the sequence.  Out-of-range reads default to 0;
every read performed by the protocols under their guards is in range. -/
def pyGet (y : List ℚ) (i : ℤ) : ℚ :=
  if 0 ≤ i then y.getD i.toNat 0 else y.getD ((y.length : ℤ) + i).toNat 0

/-- Python `range(a, b, step)` for a non-negative bound and positive step
(the bound `n - max(horizons)` is clamped at 0, which leaves the range empty
exactly when the Python bound is `≤ a`). -/
def pyRange (a b step : ℕ) : List ℕ :=
  (List.range ((b - a + step - 1) / step)).map (fun i => a + i * step)

/-- `max(horizons)` over a list of naturals (Python `max`; 0 on empty input,
which the program never exercises). -/
def maxList (l : List ℕ) : ℕ := l.foldr max 0

/-- `np.mean` of a list of rationals. -/
def meanQ (l : List ℚ) : ℚ := l.sum / (l.length : ℚ)

/-- `y.rolling(window=w, min_periods=1).mean()`: trailing moving average whose
window at index `i` is the slice `y[max(0, i+1-w) .. i]` (partial windows at
the start use all available prior points, never future ones). -/
def rollingMean (w : ℕ) (y : List ℚ) : List ℚ :=
  (List.range y.length).map (fun i =>
    let seg := (y.take (i + 1)).drop (i + 1 - w)
    seg.sum / (seg.length : ℚ))

/-- `StandardScaler` artifact: column mean and scale. -/
structure Scaler where
  mean : ℚ
  scale : ℚ
  deriving DecidableEq, Repr

/-- `StandardScaler().fit`: population mean and standard deviation
(`sqrt` of the ddof-0 variance, via the external float sqrt); a zero scale is
replaced by 1 (sklearn `_handle_zeros_in_scale`). -/
def fitScaler (ops : NumOps) (v : List ℚ) : Scaler :=
  let mu := v.sum / (v.length : ℚ)
  let variance := (v.map (fun x => (x - mu) ^ 2)).sum / (v.length : ℚ)
  let s := ops.sqrt variance
  ⟨mu, if s = 0 then 1 else s⟩

/-- `scaler.transform` on one value. -/
def Scaler.transform (sc : Scaler) (x : ℚ) : ℚ := (x - sc.mean) / sc.scale

/-- `scaler.inverse_transform` on one value. -/
def Scaler.invTransform (sc : Scaler) (x : ℚ) : ℚ := x * sc.scale + sc.mean

/-- Row `r` of the lag-feature matrix built by
`np.column_stack([np.roll(v, i) for i in range(1, p+1)])`: entry `j`
(0-based) is `v[r - (j+1)]`. -/
def laggedRow (v : List ℚ) (r p : ℕ) : List ℚ :=
  (List.range p).map (fun j => v.getD (r - (j + 1)) 0)

/-- The `[p:]` slice of the rolled column stack: rows `r = p .. len(v) - 1`,
each holding the `p` preceding values of `v` (most recent first). -/
def laggedMatrix (v : List ℚ) (p : ℕ) : List (List ℚ) :=
  (List.range' p (v.length - p)).map (fun r => laggedRow v r p)

/-- `skill = 1 - (err_model / err_persist) if err_persist > 0 else 0`. -/
def skillScore (em ep : ℚ) : ℚ := if 0 < ep then 1 - em / ep else 0

/-- `split_idx = int(n * train_frac)` (floor for the non-negative products the
program forms). -/
def splitIdx (n : ℕ) (frac : ℚ) : ℕ := (⌊(n : ℚ) * frac⌋).toNat

/-- The single model prediction of the static protocol: rolling mean over the
ENTIRE series, truncation to `[0, k)` as training input, scaler and ridge fit
on it, and a test row from the smoothed values at `[k, k+p)` (transformed,
then reversed for the lag structure); the scaled prediction is inverted. -/
def staticPrediction (ops : NumOps) (y : List ℚ) (k p : ℕ) : ℚ :=
  let y_rolled := rollingMean 24 y
  let y_train := y_rolled.take k
  let sc := fitScaler ops y_train
  let v := y_train.map sc.transform
  let testRow := (((y_rolled.drop k).take p).map sc.transform).reverse
  sc.invTransform (ops.ridge (laggedMatrix v p) (v.drop p) testRow)

/-- `static_leaky_protocol(y, train_frac, horizons, p)`: one split at
`k = int(n*train_frac)`; horizons with `k + p + h >= n` are skipped; each kept
horizon compares the (horizon-independent) prediction with the true value
`y_test[h-1]` (`y_test = y[k:]`, the unsmoothed series) and the persistence
baseline `y[k-1]`. -/
def static_leaky_protocol (ops : NumOps) (y : List ℚ) (train_frac : ℚ)
    (horizons : List ℕ) (p : ℕ) : List (ℕ × SkillStat) :=
  let n := y.length
  let k := splitIdx n train_frac
  (horizons.filter (fun h => k + p + h < n)).map (fun (h : ℕ) =>
    let pred := staticPrediction ops y k p
    let y_true := pyGet (y.drop k) ((h : ℤ) - 1)
    let y_persist := pyGet y ((k : ℤ) - 1)
    let em := (pred - y_true) ^ 2
    let ep := (y_persist - y_true) ^ 2
    (h, ⟨ops.sqrt em, skillScore em ep⟩))

/-- The per-origin model prediction of the rolling protocol: everything
(smoothing, scaler, lag matrix, ridge fit, test row) is computed from the
strict prefix `y[:origin]` only. -/
def rollingPrediction (ops : NumOps) (y : List ℚ) (origin p : ℕ) : ℚ :=
  let y_train := y.take origin
  let y_rolled := rollingMean 24 y_train
  let sc := fitScaler ops y_rolled
  let v := y_rolled.map sc.transform
  let testRow := ((y_rolled.drop (y_rolled.length - p)).map sc.transform).reverse
  sc.invTransform (ops.ridge (laggedMatrix v p) (v.drop p) testRow)

/-- One `(origin, horizon)` sample of the rolling protocol: prediction from
the prefix, truth `y[origin + h - 1]`, persistence `y[origin - 1]`, squared
errors, rmse and skill. -/
def originSample (ops : NumOps) (y : List ℚ) (p origin h : ℕ) : SkillStat :=
  let pred := rollingPrediction ops y origin p
  let y_true := pyGet y ((origin : ℤ) + (h : ℤ) - 1)
  let y_persist := pyGet y ((origin : ℤ) - 1)
  let em := (pred - y_true) ^ 2
  let ep := (y_persist - y_true) ^ 2
  ⟨ops.sqrt em, skillScore em ep⟩

/-- The list `results[h]` accumulated by the double loop of the rolling
protocol: one sample per origin in
`range(W_min, n - max(horizons), step)` that passes `origin + h < n`, in
origin order. -/
def samplesFor (ops : NumOps) (y : List ℚ) (horizons : List ℕ)
    (W_min step p h : ℕ) : List SkillStat :=
  ((pyRange W_min (y.length - maxList horizons) step).filter
      (fun o => o + h < y.length)).map
    (fun o => originSample ops y p o h)

/-- `rolling_origin_causal_protocol`: per horizon, the mean of the per-origin
rmse and skill samples; a horizon whose sample list is empty is omitted from
the summary. -/
def rolling_origin_causal_protocol (ops : NumOps) (y : List ℚ)
    (horizons : List ℕ) (W_min step p : ℕ) : List (ℕ × SkillStat) :=
  horizons.filterMap (fun h =>
    if 0 < (samplesFor ops y horizons W_min step p h).length then
      some (h, ⟨meanQ ((samplesFor ops y horizons W_min step p h).map SkillStat.rmse),
                meanQ ((samplesFor ops y horizons W_min step p h).map SkillStat.skill)⟩)
    else none)

/-- `compute_hstar(results, threshold)`: sort the keys, scan them in
descending order, return the first horizon whose skill exceeds the threshold,
else 0. -/
def compute_hstar (results : List (ℕ × SkillStat)) (threshold : ℚ) : ℕ :=
  ((List.insertionSort (· ≤ ·) (results.map Prod.fst)).reverse.find?
      (fun h =>
        match results.lookup h with
        | some s => decide (threshold < s.skill)
        | none => false)).getD 0

/-- A concrete instantiation of the external numeric dependencies, used to
evaluate the protocols on small closed inputs. -/
def constOps : NumOps := ⟨fun _ _ _ => 0, fun x => x⟩

/-- A concrete series of length 8; with `train_frac = 3/4` its split index is
`int(8 * 3/4) = 6`. -/
def yA : List ℚ := [10, 20, 30, 40, 50, 60, 70, 80]

/-- The same series with the value at index 6 (inside the test region, since
the split index is 6) perturbed from 70 to 990. -/
def yB : List ℚ := [10, 20, 30, 40, 50, 60, 990, 80]

/-! ## Helper lemmas -/

/-- Indexing by a natural number is plain list indexing. -/
theorem pyGet_ofNat (y : List ℚ) (i : ℕ) : pyGet y (i : ℤ) = y.getD i 0 := by
  simp [pyGet]

/-- Python `y[k - 1]` for `k ≥ 1` reads index `k - 1`. -/
theorem pyGet_pred (y : List ℚ) (k : ℕ) (hk : 1 ≤ k) :
    pyGet y ((k : ℤ) - 1) = y.getD (k - 1) 0 := by
  have h : (k : ℤ) - 1 = ((k - 1 : ℕ) : ℤ) := by omega
  rw [h, pyGet_ofNat]

/-- Python `y[k:][h - 1]` for `h ≥ 1` reads index `k + h - 1` of `y`. -/
theorem pyGet_drop_pred (y : List ℚ) (k h : ℕ) (hh : 1 ≤ h) :
    pyGet (y.drop k) ((h : ℤ) - 1) = y.getD (k + h - 1) 0 := by
  have h1 : (h : ℤ) - 1 = ((h - 1 : ℕ) : ℤ) := by omega
  rw [h1, pyGet_ofNat]
  have h2 : k + (h - 1) = k + h - 1 := by omega
  simp [List.getD, ← h2, List.getElem?_drop]

/-- Python `y[o + h - 1]` for `h ≥ 1` reads index `o + h - 1`. -/
theorem pyGet_add_pred (y : List ℚ) (o h : ℕ) (hh : 1 ≤ h) :
    pyGet y ((o : ℤ) + (h : ℤ) - 1) = y.getD (o + h - 1) 0 := by
  have h1 : (o : ℤ) + (h : ℤ) - 1 = ((o + h - 1 : ℕ) : ℤ) := by omega
  rw [h1, pyGet_ofNat]

/-- `(s - 1) / s = 0` for every natural `s` (also for `s = 0`). -/
theorem pred_div_self_eq_zero (s : ℕ) : (s - 1) / s = 0 := by
  cases s with
  | zero => rfl
  | succ t => exact Nat.div_eq_of_lt (by omega)

/-- `pyRange a b step` is empty when the bound does not exceed the start. -/
theorem pyRange_eq_nil {a b step : ℕ} (hba : b ≤ a) : pyRange a b step = [] := by
  unfold pyRange
  have h1 : b - a = 0 := by omega
  rw [h1]
  have h2 : (0 + step - 1) / step = 0 := by
    rw [Nat.zero_add]; exact pred_div_self_eq_zero step
  rw [h2]
  rfl

/-- Every element of `pyRange a b step` with a positive step is `< b`. -/
theorem mem_pyRange_lt {a b step o : ℕ} (hstep : 1 ≤ step)
    (ho : o ∈ pyRange a b step) : o < b := by
  unfold pyRange at ho
  rw [List.mem_map] at ho
  obtain ⟨i, hi, rfl⟩ := ho
  rw [List.mem_range] at hi
  have h1 : ((b - a + step - 1) / step) * step ≤ b - a + step - 1 :=
    Nat.div_mul_le_self _ _
  have h2 : (i + 1) * step ≤ ((b - a + step - 1) / step) * step :=
    Nat.mul_le_mul_right _ hi
  have h3 : i * step + step ≤ b - a + step - 1 := by
    have := le_trans h2 h1
    rwa [add_mul, one_mul] at this
  rcases Nat.eq_zero_or_pos (b - a) with hz | hpos
  · rw [hz] at h3; omega
  · generalize hX : i * step = X at h3 ⊢
    omega

/-- `pyRange a b step` with a positive step is non-empty when `a < b`. -/
theorem pyRange_ne_nil {a b step : ℕ} (hstep : 1 ≤ step) (hab : a < b) :
    pyRange a b step ≠ [] := by
  unfold pyRange
  intro hcon
  rw [List.map_eq_nil_iff, List.range_eq_nil] at hcon
  have h1 : 1 ≤ (b - a + step - 1) / step :=
    (Nat.one_le_div_iff (by omega)).mpr (by omega)
  omega

/-- Every member of a list of naturals is bounded by `maxList`. -/
theorem mem_le_maxList {h : ℕ} {l : List ℕ} (hm : h ∈ l) : h ≤ maxList l := by
  induction l with
  | nil => cases hm
  | cons a t ih =>
    rcases List.mem_cons.mp hm with rfl | hmem
    · exact le_max_left _ _
    · exact le_trans (ih hmem) (le_max_right _ _)

/-- A fold by `max` over naturals is bounded by any common upper bound. -/
theorem foldr_max_le {a : ℕ} {m : List ℕ} (h : ∀ x ∈ m, x ≤ a) :
    m.foldr max 0 ≤ a := by
  induction m with
  | nil => exact Nat.zero_le a
  | cons b l ih =>
    exact max_le (h b (List.mem_cons_self b l))
      (ih fun x hx => h x (List.mem_cons_of_mem b hx))

/-- A fold by `max` over naturals is invariant under permutation. -/
theorem foldr_max_perm {m₁ m₂ : List ℕ} (h : m₁.Perm m₂) :
    m₁.foldr max 0 = m₂.foldr max 0 := by
  induction h with
  | nil => rfl
  | cons x _ ih => simp [ih]
  | swap x y l => simp [max_left_comm]
  | trans _ _ ih₁ ih₂ => exact ih₁.trans ih₂

/-- On a list that is pairwise non-increasing, `find?` followed by `getD 0`
returns the maximum element satisfying the predicate (0 when none does). -/
theorem find_pairwise_filter_max {L : List ℕ}
    (hL : L.Pairwise (fun a b => b ≤ a)) (p : ℕ → Bool) :
    (L.find? p).getD 0 = (L.filter p).foldr max 0 := by
  induction L with
  | nil => rfl
  | cons a l ih =>
    rcases List.pairwise_cons.mp hL with ⟨ha, hl⟩
    by_cases hpa : p a
    · rw [List.find?_cons_of_pos _ hpa, List.filter_cons_of_pos hpa]
      simp only [Option.getD_some, List.foldr]
      exact (max_eq_left (foldr_max_le fun x hx =>
        ha x (List.mem_of_mem_filter hx))).symm
    · rw [List.find?_cons_of_neg _ (by simpa using hpa),
        List.filter_cons_of_neg (by simpa using hpa)]
      exact ih hl

/-- Weakening the predicate can only move `find?`-with-default-0 upward on a
pairwise non-increasing list. -/
theorem find_getD_mono {L : List ℕ} (hL : L.Pairwise (fun a b => b ≤ a))
    {p q : ℕ → Bool} (himp : ∀ x, q x = true → p x = true) :
    (L.find? q).getD 0 ≤ (L.find? p).getD 0 := by
  induction L with
  | nil => simp [List.find?]
  | cons a l ih =>
    rcases List.pairwise_cons.mp hL with ⟨ha, hl⟩
    by_cases hpa : p a
    · rw [List.find?_cons_of_pos _ hpa]
      by_cases hqa : q a
      · rw [List.find?_cons_of_pos _ hqa]
      · rw [List.find?_cons_of_neg _ (by simpa using hqa)]
        cases hfq : l.find? q with
        | none => simp
        | some b =>
          have hb := List.mem_of_find?_eq_some hfq
          simpa [hfq] using ha b hb
    · have hqa : ¬ q a = true := fun hq => hpa (himp a hq)
      rw [List.find?_cons_of_neg _ (by simpa using hqa),
        List.find?_cons_of_neg _ (by simpa using hpa)]
      exact ih hl

/-- Looking up a member's key in an association list with nodup keys returns
that member's value. -/
theorem lookup_eq_some_of_nodup {r : List (ℕ × SkillStat)} {e : ℕ × SkillStat}
    (hnd : (r.map Prod.fst).Nodup) (he : e ∈ r) : r.lookup e.1 = some e.2 := by
  induction r with
  | nil => cases he
  | cons b rest ih =>
    rw [List.map_cons, List.nodup_cons] at hnd
    rcases List.mem_cons.mp he with rfl | hmem
    · simp [List.lookup]
    · have hne : e.1 ≠ b.1 := by
        intro hEq
        exact hnd.1 (hEq ▸ List.mem_map_of_mem Prod.fst hmem)
      cases b with
      | mk bk bv =>
        have hb : (e.1 == bk) = false := by simpa using hne
        simp only [List.lookup, hb]
        exact ih hnd.2 hmem

/-- Filtering the key list of an association list commutes with projecting
the keys. -/
theorem filter_map_fst (r : List (ℕ × SkillStat)) (q : ℕ → Bool) :
    (r.map Prod.fst).filter q = (r.filter (fun e => q e.1)).map Prod.fst := by
  induction r with
  | nil => rfl
  | cons a l ih =>
    by_cases h : q a.1 <;> simp [List.filter, h, ih]

/-- If a function sends each member `a` of a list to `some (a, c)` for some
`c`, then the keys of the `filterMap` are the list itself. -/
theorem filterMap_id_fst {α β : Type} {l : List α} {f : α → Option (α × β)}
    (hf : ∀ a ∈ l, ∃ c, f a = some (a, c)) :
    (l.filterMap f).map Prod.fst = l := by
  induction l with
  | nil => rfl
  | cons a t ih =>
    obtain ⟨c, hc⟩ := hf a (List.mem_cons_self a t)
    rw [List.filterMap_cons, hc]
    simp [ih fun x hx => hf x (List.mem_cons_of_mem a hx)]

/-- The first `k` entries of the trailing rolling mean are a function of the
first `k` entries of the series only. -/
theorem rollingMean_take_prefix (w k : ℕ) (y₁ y₂ : List ℚ)
    (hk₁ : k ≤ y₁.length) (hk₂ : k ≤ y₂.length) (hpre : y₁.take k = y₂.take k) :
    (rollingMean w y₁).take k = (rollingMean w y₂).take k := by
  unfold rollingMean
  rw [← List.map_take, ← List.map_take, List.take_range, List.take_range,
    min_eq_left hk₁, min_eq_left hk₂]
  apply List.map_congr_left
  intro i hi
  rw [List.mem_range] at hi
  have h1 : y₁.take (i + 1) = y₂.take (i + 1) := by
    have e₁ : y₁.take (i + 1) = (y₁.take k).take (i + 1) := by
      rw [List.take_take, min_eq_left (by omega)]
    have e₂ : y₂.take (i + 1) = (y₂.take k).take (i + 1) := by
      rw [List.take_take, min_eq_left (by omega)]
    rw [e₁, e₂, hpre]
  rw [h1]

/-! ## Claim theorems -/

/-- Claim C1: the forecast the rolling-origin causal protocol computes at an
origin `o` is a function of the series values at indices strictly below `o`
only — two series that agree on all indices `< o` (so any perturbation at an
index `≥ o`) produce the same prediction, for every instantiation of the
external numeric operations. -/
theorem rolling_prediction_causal (ops : NumOps) (y₁ y₂ : List ℚ) (o p : ℕ)
    (hpre : y₁.take o = y₂.take o) :
    rollingPrediction ops y₁ o p = rollingPrediction ops y₂ o p := by
  unfold rollingPrediction
  rw [hpre]

/-- Witness for C1 at a concrete input: the two series agree below the origin
2 and differ at indices 2 and 3, yet the origin-2 forecasts coincide. -/
theorem rolling_prediction_causal_witness :
    ([1, 2, 3, 4] : List ℚ).take 2 = ([1, 2, 9, 9] : List ℚ).take 2 ∧
      rollingPrediction constOps [1, 2, 3, 4] 2 1
        = rollingPrediction constOps [1, 2, 9, 9] 2 1 :=
  ⟨by decide, rolling_prediction_causal constOps [1, 2, 3, 4] [1, 2, 9, 9] 2 1
    (by decide)⟩

/-- Claim C2 (evaluating the code at the failing input): contrary to the
docstring of `static_leaky_protocol` and the spec's leak invariant, perturbing
a value strictly inside the test region (index 6 ≥ split index 6) leaves the
smoothed training values — the truncation of the full-series trailing rolling
mean to `[0, 6)` — completely unchanged, because the pandas rolling window is
trailing. -/
theorem static_train_smoothing_ignores_test_perturbation :
    splitIdx yA.length (3 / 4) = 6
    ∧ yA.take 6 = yB.take 6
    ∧ yA ≠ yB
    ∧ (rollingMean 24 yA).take (splitIdx yA.length (3 / 4))
        = (rollingMean 24 yB).take (splitIdx yB.length (3 / 4)) := by
  have hA : splitIdx yA.length (3 / 4) = 6 := by
    show splitIdx 8 (3 / 4) = 6
    unfold splitIdx
    norm_num
    rfl
  have hB : splitIdx yB.length (3 / 4) = 6 := by
    show splitIdx 8 (3 / 4) = 6
    exact hA
  refine ⟨hA, by decide, by decide, ?_⟩
  rw [hA, hB]
  have hr : List.range 8 = [0, 1, 2, 3, 4, 5, 6, 7] := rfl
  norm_num [rollingMean, yA, yB, hr]

/-- General form behind C2's failure: the first `k` smoothed values depend
only on the first `k` raw values, so no test-region perturbation can ever
reach the static protocol's training input. -/
theorem static_train_smoothing_causal (k : ℕ) (y₁ y₂ : List ℚ)
    (hk₁ : k ≤ y₁.length) (hk₂ : k ≤ y₂.length)
    (hpre : y₁.take k = y₂.take k) :
    (rollingMean 24 y₁).take k = (rollingMean 24 y₂).take k :=
  rollingMean_take_prefix 24 k y₁ y₂ hk₁ hk₂ hpre

/-- Claim C3: `compute_hstar` returns the largest horizon in the record whose
skill strictly exceeds the threshold, and 0 when no horizon qualifies (the
fold by `max` over the qualifying horizons starts at 0, so it is 0 exactly on
the empty set of qualifiers, and the maximum qualifier otherwise). -/
theorem compute_hstar_eq_max_qualifying (r : List (ℕ × SkillStat)) (t : ℚ)
    (hnd : (r.map Prod.fst).Nodup) :
    compute_hstar r t
      = ((r.filter (fun e => t < e.2.skill)).map Prod.fst).foldr max 0 := by
  unfold compute_hstar
  rw [find_pairwise_filter_max
    (List.pairwise_reverse.mpr (List.sorted_insertionSort _ _))]
  rw [foldr_max_perm
    (((List.reverse_perm _).trans (List.perm_insertionSort _ _)).filter _)]
  rw [filter_map_fst]
  have hfe : r.filter (fun e =>
        match r.lookup e.1 with
        | some s => decide (t < s.skill)
        | none => false)
      = r.filter (fun e => decide (t < e.2.skill)) := by
    apply List.filter_congr
    intro e he
    rw [lookup_eq_some_of_nodup hnd he]
  rw [hfe]

/-- Witness for C3 at a concrete record: among horizons 1, 2, 6 with skills
3, −1, 1 and threshold 0, the result is the largest qualifying horizon. -/
theorem compute_hstar_eq_max_qualifying_witness :
    (([(1, ⟨0, 3⟩), (2, ⟨0, -1⟩), (6, ⟨0, 1⟩)] :
        List (ℕ × SkillStat)).map Prod.fst).Nodup ∧
      compute_hstar [(1, ⟨0, 3⟩), (2, ⟨0, -1⟩), (6, ⟨0, 1⟩)] 0
        = ((([(1, ⟨0, 3⟩), (2, ⟨0, -1⟩), (6, ⟨0, 1⟩)] :
              List (ℕ × SkillStat)).filter
            (fun e => (0 : ℚ) < e.2.skill)).map Prod.fst).foldr max 0 :=
  ⟨by decide, compute_hstar_eq_max_qualifying
    [(1, ⟨0, 3⟩), (2, ⟨0, -1⟩), (6, ⟨0, 1⟩)] 0 (by decide)⟩

/-- Claim C8: for a fixed record, raising the threshold can only keep the
computed H* the same or decrease it. -/
theorem compute_hstar_antitone_in_threshold (r : List (ℕ × SkillStat))
    (t₁ t₂ : ℚ) (h : t₁ ≤ t₂) :
    compute_hstar r t₂ ≤ compute_hstar r t₁ := by
  unfold compute_hstar
  apply find_getD_mono
    (List.pairwise_reverse.mpr (List.sorted_insertionSort _ _))
  intro x hx
  cases hfind : r.lookup x with
  | none =>
    rw [hfind] at hx
    simp at hx
  | some s =>
    rw [hfind] at hx
    simp only [decide_eq_true_eq] at hx ⊢
    linarith

/-- Claim C4: every evaluated (protocol, origin, horizon) sample in both
protocols records `skillScore` of its model and persistence squared errors,
and `skillScore` equals `1 - em/ep` when `ep > 0` and `0` when `ep = 0`; it
is a total function, so no division fault can occur. -/
theorem skill_score_policy (ops : NumOps) (y : List ℚ) (frac : ℚ)
    (horizons : List ℕ) (p : ℕ) :
    (∀ h st, (h, st) ∈ static_leaky_protocol ops y frac horizons p →
      st.skill = skillScore
        ((staticPrediction ops y (splitIdx y.length frac) p
            - pyGet (y.drop (splitIdx y.length frac)) ((h : ℤ) - 1)) ^ 2)
        ((pyGet y ((splitIdx y.length frac : ℤ) - 1)
            - pyGet (y.drop (splitIdx y.length frac)) ((h : ℤ) - 1)) ^ 2))
    ∧ (∀ origin h, (originSample ops y p origin h).skill = skillScore
        ((rollingPrediction ops y origin p
            - pyGet y ((origin : ℤ) + (h : ℤ) - 1)) ^ 2)
        ((pyGet y ((origin : ℤ) - 1)
            - pyGet y ((origin : ℤ) + (h : ℤ) - 1)) ^ 2))
    ∧ (∀ em ep : ℚ, (0 < ep → skillScore em ep = 1 - em / ep)
        ∧ (ep = 0 → skillScore em ep = 0)) := by
  refine ⟨?_, ?_, ?_⟩
  · intro h st hmem
    simp only [static_leaky_protocol, List.mem_map, List.mem_filter,
      Prod.mk.injEq] at hmem
    obtain ⟨a, -, rfl, rfl⟩ := hmem
    rfl
  · intro origin h
    rfl
  · intro em ep
    constructor
    · intro hep
      unfold skillScore
      rw [if_pos hep]
    · intro hep
      unfold skillScore
      rw [hep]
      rfl

/-- Witness for C4: the positive-persistence-error branch of `skillScore`
evaluated at `em = 1`, `ep = 4`. -/
theorem skill_score_policy_witness :
    (0 : ℚ) < 4 ∧ skillScore 1 4 = 1 - 1 / 4 :=
  ⟨by decide, ((skill_score_policy constOps [] 0 [] 0).2.2 1 4).1 (by decide)⟩

/-- Claim C5: when `W_min ≥ n − max(horizons)`, the origin sequence is empty,
the rolling protocol returns the empty mapping (totally, with no error), and
`compute_hstar` on that empty result is 0. -/
theorem rolling_empty_result (ops : NumOps) (y : List ℚ) (horizons : List ℕ)
    (W step p : ℕ) (t : ℚ) (hnz : horizons ≠ [])
    (hW : (y.length : ℤ) - (maxList horizons : ℤ) ≤ (W : ℤ)) :
    pyRange W (y.length - maxList horizons) step = []
    ∧ rolling_origin_causal_protocol ops y horizons W step p = []
    ∧ compute_hstar (rolling_origin_causal_protocol ops y horizons W step p) t
        = 0 := by
  have hb : y.length - maxList horizons ≤ W := by omega
  have h1 : pyRange W (y.length - maxList horizons) step = [] :=
    pyRange_eq_nil hb
  have h2 : rolling_origin_causal_protocol ops y horizons W step p = [] := by
    unfold rolling_origin_causal_protocol
    rw [List.filterMap_eq_nil_iff]
    intro a ha
    have hs : samplesFor ops y horizons W step p a = [] := by
      unfold samplesFor
      rw [h1]
      rfl
    rw [hs]
    rfl
  exact ⟨h1, h2, by rw [h2]; exact rfl⟩

/-- Witness for C5: a length-2 series with horizon set {1} and `W_min = 5`. -/
theorem rolling_empty_result_witness :
    ([1] : List ℕ) ≠ []
    ∧ (([1, 2] : List ℚ).length : ℤ) - (maxList [1] : ℤ) ≤ (5 : ℤ)
    ∧ pyRange 5 (([1, 2] : List ℚ).length - maxList [1]) 1 = []
    ∧ rolling_origin_causal_protocol constOps [1, 2] [1] 5 1 1 = []
    ∧ compute_hstar (rolling_origin_causal_protocol constOps [1, 2] [1] 5 1 1)
        0 = 0 :=
  ⟨by decide, by decide,
    (rolling_empty_result constOps [1, 2] [1] 5 1 1 0 (by decide) (by decide))⟩

/-- Claim C6: the static protocol's result keeps exactly the horizons with
`k + p + h < n` (in input order; overflowing horizons are silently dropped),
and each retained horizon's record compares the prediction with the true
unsmoothed series value at index `k + h − 1` and the persistence baseline at
index `k − 1`. -/
theorem static_horizon_selection (ops : NumOps) (y : List ℚ) (frac : ℚ)
    (horizons : List ℕ) (p : ℕ) :
    ((static_leaky_protocol ops y frac horizons p).map Prod.fst
        = horizons.filter
            (fun h => splitIdx y.length frac + p + h < y.length))
    ∧ (∀ h ∈ horizons, 1 ≤ h → 1 ≤ splitIdx y.length frac →
        splitIdx y.length frac + p + h < y.length →
        (h, (⟨ops.sqrt ((staticPrediction ops y (splitIdx y.length frac) p
                - y.getD (splitIdx y.length frac + h - 1) 0) ^ 2),
             skillScore
               ((staticPrediction ops y (splitIdx y.length frac) p
                  - y.getD (splitIdx y.length frac + h - 1) 0) ^ 2)
               ((y.getD (splitIdx y.length frac - 1) 0
                  - y.getD (splitIdx y.length frac + h - 1) 0) ^ 2)⟩ :
              SkillStat))
          ∈ static_leaky_protocol ops y frac horizons p) := by
  constructor
  · unfold static_leaky_protocol
    rw [List.map_map]
    exact List.map_id _
  · intro h hh hh1 hk hguard
    unfold static_leaky_protocol
    rw [List.mem_map]
    refine ⟨h, List.mem_filter.mpr ⟨hh, by simpa using hguard⟩, ?_⟩
    have e1 : pyGet (y.drop (splitIdx y.length frac)) ((h : ℤ) - 1)
        = y.getD (splitIdx y.length frac + h - 1) 0 :=
      pyGet_drop_pred y _ h hh1
    have e2 : pyGet y ((splitIdx y.length frac : ℤ) - 1)
        = y.getD (splitIdx y.length frac - 1) 0 := pyGet_pred y _ hk
    show (h, (⟨_, _⟩ : SkillStat)) = _
    rw [e1, e2]

/-- Witness for C6: the length-6 series `[1,…,6]` with `frac = 1/2`
(`k = 3`), lag order 1 and horizon 1 keeps horizon 1 and compares against
index `k + h − 1 = 3` and persistence index `k − 1 = 2`. -/
theorem static_horizon_selection_witness :
    splitIdx ([1, 2, 3, 4, 5, 6] : List ℚ).length (1 / 2) = 3
    ∧ ((1 : ℕ),
        (⟨constOps.sqrt ((staticPrediction constOps [1, 2, 3, 4, 5, 6]
              (splitIdx ([1, 2, 3, 4, 5, 6] : List ℚ).length (1 / 2)) 1
            - ([1, 2, 3, 4, 5, 6] : List ℚ).getD
                (splitIdx ([1, 2, 3, 4, 5, 6] : List ℚ).length (1 / 2) + 1 - 1)
                0) ^ 2),
          skillScore
            ((staticPrediction constOps [1, 2, 3, 4, 5, 6]
                (splitIdx ([1, 2, 3, 4, 5, 6] : List ℚ).length (1 / 2)) 1
              - ([1, 2, 3, 4, 5, 6] : List ℚ).getD
                  (splitIdx ([1, 2, 3, 4, 5, 6] : List ℚ).length (1 / 2) + 1
                    - 1) 0) ^ 2)
            ((([1, 2, 3, 4, 5, 6] : List ℚ).getD
                (splitIdx ([1, 2, 3, 4, 5, 6] : List ℚ).length (1 / 2) - 1) 0
              - ([1, 2, 3, 4, 5, 6] : List ℚ).getD
                  (splitIdx ([1, 2, 3, 4, 5, 6] : List ℚ).length (1 / 2) + 1
                    - 1) 0) ^ 2)⟩ : SkillStat))
        ∈ static_leaky_protocol constOps [1, 2, 3, 4, 5, 6] (1 / 2) [1] 1 := by
  have hs : splitIdx ([1, 2, 3, 4, 5, 6] : List ℚ).length (1 / 2) = 3 := by
    show splitIdx 6 (1 / 2) = 3
    unfold splitIdx
    norm_num
    rfl
  refine ⟨hs, (static_horizon_selection constOps [1, 2, 3, 4, 5, 6] (1 / 2)
    [1] 1).2 1 (by decide) (by decide) (by rw [hs]; decide) (by rw [hs]; decide)⟩

/-- Claim C7: an entry `(h, st)` is in the rolling protocol's result exactly
when `h` is an input horizon with a non-empty per-origin sample list, and then
`st` is the arithmetic mean (componentwise for rmse and skill) over exactly
the origins that produced a sample for `h`; horizons with zero contributing
origins are absent. -/
theorem rolling_aggregates_by_mean (ops : NumOps) (y : List ℚ)
    (horizons : List ℕ) (W step p : ℕ) (h : ℕ) (st : SkillStat) :
    (h, st) ∈ rolling_origin_causal_protocol ops y horizons W step p ↔
      (h ∈ horizons ∧ samplesFor ops y horizons W step p h ≠ []
        ∧ st = ⟨meanQ ((samplesFor ops y horizons W step p h).map
                  SkillStat.rmse),
                meanQ ((samplesFor ops y horizons W step p h).map
                  SkillStat.skill)⟩) := by
  unfold rolling_origin_causal_protocol
  rw [List.mem_filterMap]
  constructor
  · rintro ⟨a, ha, hfa⟩
    by_cases hlen : 0 < (samplesFor ops y horizons W step p a).length
    · rw [if_pos hlen] at hfa
      have hpair := Option.some.inj hfa
      have h1 : a = h := congrArg Prod.fst hpair
      subst h1
      exact ⟨ha, List.length_pos.mp hlen, (congrArg Prod.snd hpair).symm⟩
    · rw [if_neg hlen] at hfa
      cases hfa
  · rintro ⟨hmem, hne, rfl⟩
    exact ⟨h, hmem, by rw [if_pos (List.length_pos.mpr hne)]⟩

/-- Claim C10: when the origin sequence is non-empty
(`W_min < n − max(horizons)`, positive step), the rolling protocol's result
keys are exactly the input horizon list, and the per-horizon guard
`origin + h < n` excludes no origin, because every generated origin is below
`n − max(horizons)`. -/
theorem rolling_full_coverage (ops : NumOps) (y : List ℚ) (horizons : List ℕ)
    (W step p : ℕ) (hstep : 1 ≤ step)
    (hW : (W : ℤ) < (y.length : ℤ) - (maxList horizons : ℤ)) :
    ((rolling_origin_causal_protocol ops y horizons W step p).map Prod.fst
        = horizons)
    ∧ (∀ h ∈ horizons,
        (pyRange W (y.length - maxList horizons) step).filter
            (fun o => o + h < y.length)
          = pyRange W (y.length - maxList horizons) step)
    ∧ pyRange W (y.length - maxList horizons) step ≠ [] := by
  have hWb : W < y.length - maxList horizons := by omega
  have hfilter : ∀ h ∈ horizons,
      (pyRange W (y.length - maxList horizons) step).filter
          (fun o => o + h < y.length)
        = pyRange W (y.length - maxList horizons) step := by
    intro h hh
    apply List.filter_eq_self.mpr
    intro o ho
    have h1 : o < y.length - maxList horizons := mem_pyRange_lt hstep ho
    have h2 : h ≤ maxList horizons := mem_le_maxList hh
    simp only [decide_eq_true_eq]
    omega
  have hne : pyRange W (y.length - maxList horizons) step ≠ [] :=
    pyRange_ne_nil hstep hWb
  refine ⟨?_, hfilter, hne⟩
  unfold rolling_origin_causal_protocol
  apply filterMap_id_fst
  intro h hh
  have hs : samplesFor ops y horizons W step p h ≠ [] := by
    unfold samplesFor
    rw [hfilter h hh]
    simpa [List.map_eq_nil_iff] using hne
  exact ⟨⟨meanQ ((samplesFor ops y horizons W step p h).map SkillStat.rmse),
          meanQ ((samplesFor ops y horizons W step p h).map SkillStat.skill)⟩,
    by rw [if_pos (List.length_pos.mpr hs)]⟩

/-- Witness for C10: series `[1,2,3,4]`, horizons `{1}`, `W_min = 1`,
`step = 1`: the origin sequence `[1, 2]` is non-empty and the result keys are
exactly `[1]`. -/
theorem rolling_full_coverage_witness :
    (1 : ℕ) ≤ 1
    ∧ ((1 : ℕ) : ℤ) < (([1, 2, 3, 4] : List ℚ).length : ℤ)
        - (maxList [1] : ℤ)
    ∧ (rolling_origin_causal_protocol constOps [1, 2, 3, 4] [1] 1 1 1).map
        Prod.fst = [1] :=
  ⟨by decide, by decide,
    (rolling_full_coverage constOps [1, 2, 3, 4] [1] 1 1 1 (by decide)
      (by decide)).1⟩

/-- Witness for C8 at a concrete record and thresholds 0 ≤ 2. -/
theorem compute_hstar_antitone_witness :
    (0 : ℚ) ≤ 2 ∧
      compute_hstar [(1, ⟨0, 3⟩), (6, ⟨0, 1⟩)] 2
        ≤ compute_hstar [(1, ⟨0, 3⟩), (6, ⟨0, 1⟩)] 0 :=
  ⟨by decide, compute_hstar_antitone_in_threshold
    [(1, ⟨0, 3⟩), (6, ⟨0, 1⟩)] 0 2 (by decide)⟩

end HStarDemo
